import Mathlib

/-!
# myphasor~ : a block-based phase accumulator

Shallow embedding of `src/my_phasor~/myphasor~.c`.

Conventions of the embedding:

* `t_float` and `t_sample` (IEEE single precision in Pd) are idealised as exact
  rationals: every arithmetic operation is the exact one, there is no rounding,
  no infinity and no NaN. The development is therefore limited to properties
  that rounding does not affect: the structure of a block (which arguments go
  to `fract`, which fields are read and written), bounds on the results of
  `fract` (`x - (int)x` is computed exactly in binary floating point), and
  scenarios whose values are exactly representable. An exact equality between
  two results reached along differently rounded computations is not a property
  of this model that transfers to the code, and none is stated here.
* `int` is the 32-bit two's complement integer of every platform Pd runs on.
  The C conversion `(int)x` truncates toward zero and is defined only when the
  truncated value is representable; it is embedded as a function into `Option`.
* The object header `x_obj` and the outlet handle `p_out` belong to the host and
  carry no numeric state; they are left out of the record.
-/

namespace MyPhasor

/-- Pd's `t_float` / `t_sample`, idealised as an exact rational. -/
abbrev t_float := ℚ

/-- Smallest value of a C `int` (32 bits). -/
def INT_MIN : ℤ := -2147483648

/-- Largest value of a C `int` (32 bits). -/
def INT_MAX : ℤ := 2147483647

/-- Truncation toward zero: the value `(int)x` has whenever it is defined. -/
def truncateTowardZero (x : t_float) : ℤ :=
  if 0 ≤ x then ⌊x⌋ else ⌈x⌉

/-- The C conversion `(int)x`: truncation toward zero, undefined (here `none`)
when the truncated value does not fit in an `int`. -/
def int_of_float (x : t_float) : Option ℤ :=
  if INT_MIN ≤ truncateTowardZero x ∧ truncateTowardZero x ≤ INT_MAX then
    some (truncateTowardZero x)
  else
    none

/-- The values on which `(int)x` is defined. -/
def Representable (x : t_float) : Prop :=
  INT_MIN ≤ truncateTowardZero x ∧ truncateTowardZero x ≤ INT_MAX

instance (x : t_float) : Decidable (Representable x) := by
  unfold Representable; infer_instance

/-- The dataspace `t_myphasor_tilde` of one object. -/
structure t_myphasor_tilde where
  /-- pitch factor -/
  pitch : t_float
  /-- loop start, `[0;1]` -/
  startloop : t_float
  /-- loop end, `[0;1]` -/
  endloop : t_float
  /-- `1/sampling_rate` -/
  increase : t_float
  /-- previous value -/
  prev_value : t_float
  deriving DecidableEq, Repr

/-- `static inline t_float fract(t_float x) { return x - (int)x; }` -/
def fract (x : t_float) : Option t_float :=
  match int_of_float x with
  | none => none
  | some k => some (x - (k : t_float))

/-- The sample loop of `myphasor_tilde_perform`:
`for(i=0; i<n; i++) { out[i] = x->prev_value + (i*x->increase)*(x->pitch); out[i] = fract(out[i]); }`.
`i` is the loop counter, `out` the samples `out[0..i)` written so far; the
recursion is on the number `n - i` of iterations that remain. -/
def perform_loop (x : t_myphasor_tilde) : ℕ → ℕ → List t_float → Option (List t_float)
  | 0, _, out => some out
  | remaining + 1, i, out =>
    match fract (x.prev_value + ((i : t_float) * x.increase) * x.pitch) with
    | none => none
    | some v => perform_loop x remaining (i + 1) (out ++ [v])

/-- `myphasor_tilde_perform`: renders one signal block of `n` samples (`w[3]`)
for the object `x` (`w[1]`). Returns the samples written to `out` (`w[2]`) and
the object after the block, or `none` when a conversion in `fract` is undefined.
A negative `n` runs the loop zero times. -/
def myphasor_tilde_perform (x : t_myphasor_tilde) (n : ℤ) :
    Option (List t_float × t_myphasor_tilde) :=
  match perform_loop x n.toNat 0 [] with
  | none => none
  | some out =>
    match fract (x.prev_value + ((n : t_float) * x.increase) * x.pitch) with
    | none => none
    | some p => some (out, { x with prev_value := p })

/-- `myphasor_tilde_dsp`: `x->increase = 1./sp[0]->s_sr;` where `s_sr` is the
sample rate of the signal. (The call to `dsp_add` only schedules
`myphasor_tilde_perform` in the host and does not touch the dataspace.)
At `s_sr = 0` the C division yields an infinity, which a rational cannot hold;
the value of `increase` in the model is meaningful for `s_sr ≠ 0` only. -/
def myphasor_tilde_dsp (x : t_myphasor_tilde) (s_sr : t_float) : t_myphasor_tilde :=
  { x with increase := 1 / s_sr }

/-- `myphasor_tilde_new`: the constructor writes `pitch`, `startloop`, `endloop`
and `prev_value`. It does not write `increase`; `increase0` is the value the
host allocator (`pd_new`) left in that field. -/
def myphasor_tilde_new (increase0 : t_float) : t_myphasor_tilde :=
  { pitch := 1, startloop := 0, endloop := 1, increase := increase0, prev_value := 0 }

/-- The float inlet bound by `floatinlet_new(&x->x_obj, &x->pitch)`: a float
sent to the inlet is stored by the host directly into `pitch`. -/
def set_pitch (x : t_myphasor_tilde) (value : t_float) : t_myphasor_tilde :=
  { x with pitch := value }

/-- The argument handed to `fract` at counter value `i`:
`x->prev_value + (i*x->increase)*(x->pitch)`. -/
def raw_phase (x : t_myphasor_tilde) (i : ℕ) : t_float :=
  x.prev_value + ((i : t_float) * x.increase) * x.pitch

/-- The samples a defined block of length `n` holds. -/
def block_samples (x : t_myphasor_tilde) (n : ℕ) : List t_float :=
  (List.range n).map
    (fun j => raw_phase x j - (truncateTowardZero (raw_phase x j) : t_float))

/-- One operation of the host on an object: `configure` is a call of
`myphasor_tilde_dsp` with the given sample rate, `set_pitch` a float sent to the
pitch inlet, `render` a call of `myphasor_tilde_perform` with the given block
length. -/
inductive Op where
  | configure (s_sr : t_float)
  | set_pitch (value : t_float)
  | render (n : ℕ)
  deriving DecidableEq, Repr

/-- The effect of one operation on the dataspace. -/
def Op.apply (x : t_myphasor_tilde) : Op → Option t_myphasor_tilde
  | Op.configure s_sr => some (myphasor_tilde_dsp x s_sr)
  | Op.set_pitch value => some (MyPhasor.set_pitch x value)
  | Op.render n => (myphasor_tilde_perform x (n : ℤ)).map Prod.snd

/-- Runs a sequence of operations, first to last. -/
def run (x : t_myphasor_tilde) : List Op → Option t_myphasor_tilde
  | [] => some x
  | op :: ops =>
    match Op.apply x op with
    | none => none
    | some x' => run x' ops

/-- The host's contract on an operation: a sample rate is positive. -/
def Op.wellFormed : Op → Prop
  | Op.configure s_sr => 0 < s_sr
  | Op.set_pitch _ => True
  | Op.render _ => True

/-- An operation that never sets a negative pitch. -/
def Op.pitchNonneg : Op → Prop
  | Op.configure _ => True
  | Op.set_pitch value => 0 ≤ value
  | Op.render _ => True

/-! ## The fractional part -/

theorem fract_eq_some {x : t_float} (h : Representable x) :
    fract x = some (x - (truncateTowardZero x : t_float)) := by
  have h' : INT_MIN ≤ truncateTowardZero x ∧ truncateTowardZero x ≤ INT_MAX := h
  simp [fract, int_of_float, h']

theorem fract_eq_none {x : t_float} (h : ¬ Representable x) : fract x = none := by
  have h' : ¬ (INT_MIN ≤ truncateTowardZero x ∧ truncateTowardZero x ≤ INT_MAX) := h
  simp [fract, int_of_float, h']

theorem fract_isSome_iff (x : t_float) : (fract x).isSome ↔ Representable x := by
  by_cases h : Representable x
  · simp [fract_eq_some h, h]
  · simp [fract_eq_none h, h]

theorem fract_eq_some_iff (x v : t_float) :
    fract x = some v ↔ Representable x ∧ v = x - (truncateTowardZero x : t_float) := by
  by_cases h : Representable x
  · simp [fract_eq_some h, h, eq_comm]
  · simp [fract_eq_none h, h]

theorem truncate_of_nonneg {x : t_float} (h : 0 ≤ x) : truncateTowardZero x = ⌊x⌋ := by
  simp [truncateTowardZero, h]

theorem truncate_of_nonpos {x : t_float} (h : x ≤ 0) : truncateTowardZero x = ⌈x⌉ := by
  rcases h.lt_or_eq with h | h
  · simp [truncateTowardZero, not_le.mpr h]
  · simp [truncateTowardZero, h]

theorem truncate_of_unit {x : t_float} (h0 : 0 ≤ x) (h1 : x < 1) : truncateTowardZero x = 0 := by
  rw [truncate_of_nonneg h0, Int.floor_eq_iff]
  constructor <;> simpa

theorem representable_of_unit {x : t_float} (h0 : 0 ≤ x) (h1 : x < 1) : Representable x := by
  unfold Representable
  rw [truncate_of_unit h0 h1]
  decide

theorem fract_of_unit {x : t_float} (h0 : 0 ≤ x) (h1 : x < 1) : fract x = some x := by
  rw [fract_eq_some (representable_of_unit h0 h1), truncate_of_unit h0 h1]
  simp

/-! ## The sample loop in closed form -/

theorem perform_loop_eq_some_iff (x : t_myphasor_tilde) (k i : ℕ) (out res : List t_float) :
    perform_loop x k i out = some res ↔
      (∀ j, j < k → Representable (raw_phase x (i + j))) ∧
      res = out ++ (List.range k).map
        (fun j => raw_phase x (i + j) - (truncateTowardZero (raw_phase x (i + j)) : t_float)) := by
  induction k generalizing i out with
  | zero => simp [perform_loop, eq_comm]
  | succ k ih =>
    by_cases h : Representable (raw_phase x i)
    · have hf := fract_eq_some h
      unfold raw_phase at hf
      simp only [perform_loop, hf]
      rw [ih]
      constructor
      · rintro ⟨h1, h2⟩
        refine ⟨?_, ?_⟩
        · intro j hj
          rcases j with _ | j
          · simpa using h
          · have := h1 j (by omega)
            rwa [show i + 1 + j = i + (j + 1) by omega] at this
        · rw [h2, List.range_succ_eq_map]
          simp [raw_phase, Function.comp_def, Nat.add_assoc, Nat.add_comm 1]
      · rintro ⟨h1, h2⟩
        refine ⟨?_, ?_⟩
        · intro j hj
          have := h1 (j + 1) (by omega)
          rwa [show i + (j + 1) = i + 1 + j by omega] at this
        · rw [h2, List.range_succ_eq_map]
          simp [raw_phase, Function.comp_def, Nat.add_assoc, Nat.add_comm 1]
    · have hf := fract_eq_none h
      unfold raw_phase at hf
      simp only [perform_loop, hf]
      constructor
      · intro h'; cases h'
      · rintro ⟨h1, -⟩
        exact absurd (by simpa using h1 0 (Nat.succ_pos k)) h

theorem perform_eq_some_iff (x : t_myphasor_tilde) (n : ℕ) (out : List t_float)
    (x' : t_myphasor_tilde) :
    myphasor_tilde_perform x (n : ℤ) = some (out, x') ↔
      (∀ j, j ≤ n → Representable (raw_phase x j)) ∧ out = block_samples x n ∧
      x' = { x with prev_value := raw_phase x n - (truncateTowardZero (raw_phase x n) : t_float) } := by
  unfold myphasor_tilde_perform
  simp only [Int.toNat_ofNat, Int.cast_natCast]
  by_cases hl : ∀ j, j < n → Representable (raw_phase x j)
  · have h1 : perform_loop x n 0 [] = some (block_samples x n) := by
      rw [perform_loop_eq_some_iff]
      refine ⟨by simpa using hl, by simp [block_samples]⟩
    rw [h1]
    by_cases hn : Representable (raw_phase x n)
    · have hf := fract_eq_some hn
      unfold raw_phase at hf
      simp only [hf]
      constructor
      · intro h
        simp only [Option.some.injEq, Prod.mk.injEq] at h
        refine ⟨?_, h.1.symm, ?_⟩
        · intro j hj
          rcases Nat.lt_or_eq_of_le hj with hj | hj
          · exact hl j hj
          · rw [hj]; exact hn
        · rw [← h.2]; rfl
      · rintro ⟨-, h2, h3⟩
        rw [h2, h3]; rfl
    · have hf := fract_eq_none hn
      unfold raw_phase at hf
      simp only [hf]
      constructor
      · intro h; cases h
      · rintro ⟨h, -⟩
        exact absurd (h n le_rfl) hn
  · have h1 : perform_loop x n 0 [] = none := by
      cases hq : perform_loop x n 0 [] with
      | none => rfl
      | some r =>
        rw [perform_loop_eq_some_iff] at hq
        exact absurd (by simpa using hq.1) hl
    rw [h1]
    constructor
    · intro h; cases h
    · rintro ⟨h, -⟩
      exact absurd (fun j hj => h j (Nat.le_of_lt hj)) hl

theorem block_samples_length (x : t_myphasor_tilde) (n : ℕ) :
    (block_samples x n).length = n := by
  simp [block_samples]

theorem block_samples_getElem? (x : t_myphasor_tilde) (n i : ℕ) (h : i < n) :
    (block_samples x n)[i]? =
      some (raw_phase x i - (truncateTowardZero (raw_phase x i) : t_float)) := by
  simp [block_samples, List.getElem?_map, List.getElem?_range h]

theorem perform_isSome_iff (x : t_myphasor_tilde) (n : ℕ) :
    (myphasor_tilde_perform x (n : ℤ)).isSome ↔ ∀ i, i ≤ n → Representable (raw_phase x i) := by
  constructor
  · intro h
    obtain ⟨⟨out, x'⟩, hr⟩ := Option.isSome_iff_exists.mp h
    exact ((perform_eq_some_iff x n out x').mp hr).1
  · intro h
    have := (perform_eq_some_iff x n _ _).mpr ⟨h, rfl, rfl⟩
    rw [this]; rfl

/-! ## Evaluating `fract` on concrete arguments -/

theorem truncate_eq_of_floor {x : t_float} (k : ℤ) (h0 : 0 ≤ x) (h1 : (k : t_float) ≤ x)
    (h2 : x < (k : t_float) + 1) : truncateTowardZero x = k := by
  rw [truncate_of_nonneg h0, Int.floor_eq_iff]
  exact ⟨h1, h2⟩

theorem truncate_eq_of_ceil {x : t_float} (k : ℤ) (h0 : x ≤ 0) (h1 : (k : t_float) - 1 < x)
    (h2 : x ≤ (k : t_float)) : truncateTowardZero x = k := by
  rw [truncate_of_nonpos h0, Int.ceil_eq_iff]
  exact ⟨h1, h2⟩

theorem fract_eval {x v : t_float} (k : ℤ) (hk : truncateTowardZero x = k)
    (hmin : INT_MIN ≤ k) (hmax : k ≤ INT_MAX) (hv : v = x - (k : t_float)) :
    fract x = some v := by
  rw [fract_eq_some_iff, hk]
  exact ⟨by unfold Representable; rw [hk]; exact ⟨hmin, hmax⟩, hv⟩

/-- A block of two samples that wraps once: phase `3/4`, step `1/2`. -/
theorem perform_wrap_example :
    myphasor_tilde_perform
        { pitch := 1, startloop := 0, endloop := 1, increase := 1 / 2, prev_value := 3 / 4 } 2 =
      some ([3 / 4, 1 / 4],
        { pitch := 1, startloop := 0, endloop := 1, increase := 1 / 2, prev_value := 3 / 4 }) := by
  have f0 : fract (3 / 4) = some (3 / 4) := fract_of_unit (by norm_num) (by norm_num)
  have f1 : fract (5 / 4) = some (1 / 4) :=
    fract_eval 1 (truncate_eq_of_floor 1 (by norm_num) (by norm_num) (by norm_num))
      (by decide) (by decide) (by norm_num)
  have f2 : fract (7 / 4) = some (3 / 4) :=
    fract_eval 1 (truncate_eq_of_floor 1 (by norm_num) (by norm_num) (by norm_num))
      (by decide) (by decide) (by norm_num)
  norm_num [myphasor_tilde_perform, perform_loop, f0, f1, f2]

/-! ## Which arguments can be converted -/

theorem representable_iff_bounds (x : t_float) :
    Representable x ↔ (-2147483649 : t_float) < x ∧ x < 2147483648 := by
  unfold Representable INT_MIN INT_MAX
  rcases le_or_lt 0 x with h | h
  · rw [truncate_of_nonneg h]
    have h0 : (0 : ℤ) ≤ ⌊x⌋ := Int.floor_nonneg.mpr h
    constructor
    · rintro ⟨-, h2⟩
      refine ⟨by linarith, ?_⟩
      have := Int.lt_floor_add_one x
      have h3 : ((⌊x⌋ : ℤ) : t_float) ≤ 2147483647 := by exact_mod_cast h2
      linarith
    · rintro ⟨-, h2⟩
      refine ⟨by omega, ?_⟩
      have h3 : ⌊x⌋ < 2147483648 := Int.floor_lt.mpr (by exact_mod_cast h2)
      omega
  · rw [truncate_of_nonpos h.le]
    have h0 : ⌈x⌉ ≤ (0 : ℤ) := Int.ceil_le.mpr (by simpa using h.le)
    constructor
    · rintro ⟨h1, -⟩
      refine ⟨?_, by linarith⟩
      have := Int.ceil_lt_add_one x
      have h3 : (-2147483648 : t_float) ≤ ((⌈x⌉ : ℤ) : t_float) := by exact_mod_cast h1
      linarith
    · rintro ⟨h1, -⟩
      refine ⟨?_, by omega⟩
      have h3 : -2147483649 < ⌈x⌉ := Int.lt_ceil.mpr (by exact_mod_cast h1)
      omega

theorem perform_eq_none_of_not_representable (x : t_myphasor_tilde) (n i : ℕ) (hi : i ≤ n)
    (h : ¬ Representable (raw_phase x i)) : myphasor_tilde_perform x (n : ℤ) = none := by
  cases hq : myphasor_tilde_perform x (n : ℤ) with
  | none => rfl
  | some r =>
    have hs : (myphasor_tilde_perform x (n : ℤ)).isSome := by rw [hq]; rfl
    exact absurd ((perform_isSome_iff x n).mp hs i hi) h

/-! ## The output of one block -/

/-- C4: a block of length `n` is defined exactly when the `n + 1` calls of
`fract` are, it then holds exactly `n` samples, and sample `i` is
`fract (prev_value + i * increase * pitch)` with the three fields read at block
entry. -/
theorem perform_output_formula (x : t_myphasor_tilde) (n : ℕ) :
    ((myphasor_tilde_perform x (n : ℤ)).isSome ↔
        ∀ i, i ≤ n → (fract (x.prev_value + ((i : t_float) * x.increase) * x.pitch)).isSome) ∧
    ∀ out x', myphasor_tilde_perform x (n : ℤ) = some (out, x') →
      out.length = n ∧
      ∀ i, i < n → out[i]? = fract (x.prev_value + ((i : t_float) * x.increase) * x.pitch) := by
  refine ⟨?_, ?_⟩
  · rw [perform_isSome_iff]
    exact forall₂_congr fun i _ => (fract_isSome_iff (raw_phase x i)).symm
  · intro out x' h
    obtain ⟨hrep, hout, -⟩ := (perform_eq_some_iff x n out x').mp h
    subst hout
    refine ⟨block_samples_length x n, fun i hi => ?_⟩
    rw [block_samples_getElem? x n i hi]
    exact (fract_eq_some (hrep i hi.le)).symm

theorem perform_output_formula_witness :
    ([3 / 4, 1 / 4] : List t_float).length = 2 ∧
    ∀ i : ℕ, i < 2 → ([3 / 4, 1 / 4] : List t_float)[i]? =
      fract ((3 / 4 : t_float) + ((i : t_float) * (1 / 2)) * 1) :=
  (perform_output_formula
    { pitch := 1, startloop := 0, endloop := 1, increase := 1 / 2, prev_value := 3 / 4 } 2).2
    _ _ perform_wrap_example

/-- C5: a block of length `n` leaves in `prev_value` the value
`fract (prev_value + n * increase * pitch)` computed from the fields at block
entry; the block is defined as soon as the `n + 1` calls of `fract` are. -/
theorem perform_carried_state (x : t_myphasor_tilde) (n : ℕ) :
    ((∀ i, i ≤ n → (fract (x.prev_value + ((i : t_float) * x.increase) * x.pitch)).isSome) →
        ∃ out x', myphasor_tilde_perform x (n : ℤ) = some (out, x')) ∧
    ∀ out x', myphasor_tilde_perform x (n : ℤ) = some (out, x') →
      fract (x.prev_value + ((n : t_float) * x.increase) * x.pitch) = some x'.prev_value := by
  refine ⟨?_, ?_⟩
  · intro h
    have hs : (myphasor_tilde_perform x (n : ℤ)).isSome :=
      (perform_isSome_iff x n).mpr fun i hi => (fract_isSome_iff (raw_phase x i)).mp (h i hi)
    obtain ⟨⟨out, x'⟩, hr⟩ := Option.isSome_iff_exists.mp hs
    exact ⟨out, x', hr⟩
  · intro out x' h
    obtain ⟨hrep, -, hx⟩ := (perform_eq_some_iff x n out x').mp h
    subst hx
    exact fract_eq_some (hrep n le_rfl)

theorem perform_carried_state_witness :
    fract ((3 / 4 : t_float) + (((2 : ℕ) : t_float) * (1 / 2)) * 1) = some (3 / 4) :=
  (perform_carried_state
    { pitch := 1, startloop := 0, endloop := 1, increase := 1 / 2, prev_value := 3 / 4 } 2).2
    _ _ perform_wrap_example

/-- C10: on an object whose `prev_value` lies in `[0, 1)` a block of length
zero is defined, writes no sample and returns the object unchanged. -/
theorem perform_zero_length (x : t_myphasor_tilde) (h0 : 0 ≤ x.prev_value)
    (h1 : x.prev_value < 1) :
    myphasor_tilde_perform x 0 = some ([], x) := by
  have h := (perform_eq_some_iff x 0 [] x).mpr
  simp only [Nat.cast_zero] at h
  apply h
  have hr : raw_phase x 0 = x.prev_value := by simp [raw_phase]
  refine ⟨?_, by simp [block_samples], ?_⟩
  · intro j hj
    obtain rfl : j = 0 := by omega
    rw [hr]; exact representable_of_unit h0 h1
  · rw [hr, truncate_of_unit h0 h1]
    simp

theorem perform_zero_length_witness :
    myphasor_tilde_perform
        { pitch := -3, startloop := 0, endloop := 1, increase := 1 / 10, prev_value := 1 / 2 } 0 =
      some ([],
        { pitch := -3, startloop := 0, endloop := 1, increase := 1 / 10, prev_value := 1 / 2 }) :=
  perform_zero_length _ (by norm_num) (by norm_num)

/-! ## Range and freeze -/

/-- C2 (amended): when every argument `prev_value + i * increase * pitch` with
`0 ≤ i < n` is non-negative and every one with `0 ≤ i ≤ n` has a truncation that
fits an `int`, the block is defined and each of its `n` samples lies in
`[0, 1)`. -/
theorem perform_range (x : t_myphasor_tilde) (n : ℕ)
    (hnn : ∀ i, i < n → 0 ≤ raw_phase x i)
    (hrep : ∀ i, i ≤ n → Representable (raw_phase x i)) :
    ∃ out x', myphasor_tilde_perform x (n : ℤ) = some (out, x') ∧ out.length = n ∧
      ∀ v ∈ out, 0 ≤ v ∧ v < 1 := by
  refine ⟨_, _, (perform_eq_some_iff x n _ _).mpr ⟨hrep, rfl, rfl⟩, block_samples_length x n, ?_⟩
  intro v hv
  simp only [block_samples, List.mem_map, List.mem_range] at hv
  obtain ⟨i, hi, rfl⟩ := hv
  rw [truncate_of_nonneg (hnn i hi)]
  exact ⟨Int.fract_nonneg _, Int.fract_lt_one _⟩

theorem perform_range_witness :
    ∃ out x',
      myphasor_tilde_perform
        { pitch := 3, startloop := 0, endloop := 1, increase := 1 / 2, prev_value := 3 / 4 }
        ((4 : ℕ) : ℤ) = some (out, x') ∧
      out.length = 4 ∧ ∀ v ∈ out, 0 ≤ v ∧ v < 1 :=
  perform_range
    { pitch := 3, startloop := 0, endloop := 1, increase := 1 / 2, prev_value := 3 / 4 } 4
    (by intro i hi; interval_cases i <;> norm_num [raw_phase])
    (by
      intro i hi
      rw [representable_iff_bounds]
      interval_cases i <;> norm_num [raw_phase])

/-- Counterexample to C2 as stated: at sample rate 1 and pitch `3 * 10^9`, from phase 0,
both arguments of a block of length 2 are non-negative (`0` and `3 * 10^9`), yet
the block has no defined samples: `3 * 10^9` cannot be converted to `int`. -/
theorem perform_range_counterexample :
    (0 : t_float) < 1 ∧
    (∀ i, i < 2 → 0 ≤ raw_phase
      (set_pitch (myphasor_tilde_dsp (myphasor_tilde_new 0) 1) 3000000000) i) ∧
    fract (raw_phase (set_pitch (myphasor_tilde_dsp (myphasor_tilde_new 0) 1) 3000000000) 1) =
      none ∧
    myphasor_tilde_perform
        (set_pitch (myphasor_tilde_dsp (myphasor_tilde_new 0) 1) 3000000000) ((2 : ℕ) : ℤ) =
      none := by
  have hnr : ¬ Representable
      (raw_phase (set_pitch (myphasor_tilde_dsp (myphasor_tilde_new 0) 1) 3000000000) 1) := by
    rw [representable_iff_bounds]
    norm_num [raw_phase, set_pitch, myphasor_tilde_dsp, myphasor_tilde_new]
  refine ⟨by norm_num, ?_, fract_eq_none hnr, ?_⟩
  · intro i hi
    interval_cases i <;> norm_num [raw_phase, set_pitch, myphasor_tilde_dsp, myphasor_tilde_new]
  · exact perform_eq_none_of_not_representable _ 2 1 (by norm_num) hnr

/-- C7: with `pitch = 0` and a phase `p` in `[0, 1)`, whatever `increase` and
the block length, the block is defined, each of its samples is `p`, and the
object is returned unchanged; hence any further sequence of blocks leaves the
object unchanged too, each of them constantly `p`. -/
theorem pitch_zero_freeze (x : t_myphasor_tilde) (n : ℕ) (hp : x.pitch = 0)
    (h0 : 0 ≤ x.prev_value) (h1 : x.prev_value < 1) :
    myphasor_tilde_perform x (n : ℤ) = some (List.replicate n x.prev_value, x) ∧
    ∀ blocks : List ℕ, run x (blocks.map Op.render) = some x := by
  have key : ∀ m : ℕ,
      myphasor_tilde_perform x (m : ℤ) = some (List.replicate m x.prev_value, x) := by
    intro m
    have hr : ∀ j, raw_phase x j = x.prev_value := by
      intro j; simp [raw_phase, hp]
    rw [perform_eq_some_iff]
    refine ⟨fun j _ => by rw [hr]; exact representable_of_unit h0 h1, ?_, ?_⟩
    · apply List.ext_getElem
      · simp [block_samples]
      · intro i h₁ h₂
        simp [block_samples, hr, truncate_of_unit h0 h1]
    · rw [hr, truncate_of_unit h0 h1]
      simp
  refine ⟨key n, ?_⟩
  intro blocks
  induction blocks with
  | nil => rfl
  | cons m ms ih =>
    simp only [List.map_cons, run, Op.apply, key m, Option.map_some']
    exact ih

theorem pitch_zero_freeze_witness :
    myphasor_tilde_perform
        { pitch := 0, startloop := 0, endloop := 1, increase := 1 / 2, prev_value := 3 / 4 }
        ((3 : ℕ) : ℤ) =
      some (List.replicate 3 (3 / 4),
        { pitch := 0, startloop := 0, endloop := 1, increase := 1 / 2, prev_value := 3 / 4 }) ∧
    ∀ blocks : List ℕ,
      run { pitch := 0, startloop := 0, endloop := 1, increase := 1 / 2, prev_value := 3 / 4 }
          (blocks.map Op.render) =
        some { pitch := 0, startloop := 0, endloop := 1, increase := 1 / 2, prev_value := 3 / 4 } :=
  pitch_zero_freeze
    { pitch := 0, startloop := 0, endloop := 1, increase := 1 / 2, prev_value := 3 / 4 } 3 rfl
    (by norm_num) (by norm_num)

/-! ## Configuration -/

/-- C8: `myphasor_tilde_dsp` writes the field `increase` and nothing else:
`prev_value`, `pitch`, `startloop` and `endloop` are as before the call. -/
theorem dsp_preserves_phase (x : t_myphasor_tilde) (s_sr : t_float) :
    (myphasor_tilde_dsp x s_sr).prev_value = x.prev_value ∧
    (myphasor_tilde_dsp x s_sr).pitch = x.pitch ∧
    (myphasor_tilde_dsp x s_sr).startloop = x.startloop ∧
    (myphasor_tilde_dsp x s_sr).endloop = x.endloop ∧
    myphasor_tilde_dsp x s_sr = { x with increase := (myphasor_tilde_dsp x s_sr).increase } :=
  ⟨rfl, rfl, rfl, rfl, rfl⟩

/-- C9: for a positive sample rate `myphasor_tilde_dsp` leaves `increase` equal
to `1 / s_sr`, the inverse of the rate, and a second call with the same rate
changes nothing. -/
theorem dsp_sets_increase_idempotent (x : t_myphasor_tilde) (s_sr : t_float) (hsr : 0 < s_sr) :
    (myphasor_tilde_dsp x s_sr).increase = 1 / s_sr ∧
    (myphasor_tilde_dsp x s_sr).increase * s_sr = 1 ∧
    myphasor_tilde_dsp (myphasor_tilde_dsp x s_sr) s_sr = myphasor_tilde_dsp x s_sr := by
  refine ⟨rfl, ?_, rfl⟩
  show 1 / s_sr * s_sr = 1
  field_simp

theorem dsp_sets_increase_idempotent_witness :
    (0 : t_float) < 4 ∧
    (myphasor_tilde_dsp (myphasor_tilde_new 0) 4).increase = 1 / 4 ∧
    (myphasor_tilde_dsp (myphasor_tilde_new 0) 4).increase * 4 = 1 ∧
    myphasor_tilde_dsp (myphasor_tilde_dsp (myphasor_tilde_new 0) 4) 4 =
      myphasor_tilde_dsp (myphasor_tilde_new 0) 4 :=
  ⟨by norm_num, dsp_sets_increase_idempotent (myphasor_tilde_new 0) 4 (by norm_num)⟩

/-! ## The carried phase over a whole session -/

theorem perform_prev_value_unit (x : t_myphasor_tilde) (n : ℕ) (out : List t_float)
    (x' : t_myphasor_tilde) (hinc : 0 ≤ x.increase) (hp : 0 ≤ x.pitch) (h0 : 0 ≤ x.prev_value)
    (h : myphasor_tilde_perform x (n : ℤ) = some (out, x')) :
    x'.increase = x.increase ∧ x'.pitch = x.pitch ∧ 0 ≤ x'.prev_value ∧ x'.prev_value < 1 := by
  obtain ⟨-, -, hx⟩ := (perform_eq_some_iff x n out x').mp h
  subst hx
  have hn : (0 : t_float) ≤ n := Nat.cast_nonneg n
  have hnn : 0 ≤ raw_phase x n := by
    unfold raw_phase; positivity
  refine ⟨rfl, rfl, ?_, ?_⟩
  · show 0 ≤ raw_phase x n - (truncateTowardZero (raw_phase x n) : t_float)
    rw [truncate_of_nonneg hnn]; exact Int.fract_nonneg _
  · show raw_phase x n - (truncateTowardZero (raw_phase x n) : t_float) < 1
    rw [truncate_of_nonneg hnn]; exact Int.fract_lt_one _

theorem run_keeps_unit_interval (ops : List Op) (x x' : t_myphasor_tilde)
    (hinc : 0 ≤ x.increase) (hp : 0 ≤ x.pitch) (h0 : 0 ≤ x.prev_value) (h1 : x.prev_value < 1)
    (hwf : ∀ op ∈ ops, Op.wellFormed op) (hpn : ∀ op ∈ ops, Op.pitchNonneg op)
    (hrun : run x ops = some x') : 0 ≤ x'.prev_value ∧ x'.prev_value < 1 := by
  induction ops generalizing x with
  | nil =>
    simp only [run, Option.some.injEq] at hrun
    subst hrun; exact ⟨h0, h1⟩
  | cons op ops ih =>
    have hwf' : ∀ o ∈ ops, Op.wellFormed o := fun o ho => hwf o (List.mem_cons_of_mem _ ho)
    have hpn' : ∀ o ∈ ops, Op.pitchNonneg o := fun o ho => hpn o (List.mem_cons_of_mem _ ho)
    have hwf0 := hwf op (List.mem_cons_self _ _)
    have hpn0 := hpn op (List.mem_cons_self _ _)
    cases op with
    | configure s_sr =>
      simp only [run, Op.apply] at hrun
      have hs : 0 < s_sr := hwf0
      refine ih (myphasor_tilde_dsp x s_sr) ?_ hp h0 h1 hwf' hpn' hrun
      show 0 ≤ 1 / s_sr
      positivity
    | set_pitch value =>
      simp only [run, Op.apply] at hrun
      have hv : 0 ≤ value := hpn0
      exact ih (MyPhasor.set_pitch x value) hinc hv h0 h1 hwf' hpn' hrun
    | render n =>
      simp only [run, Op.apply] at hrun
      cases hq : myphasor_tilde_perform x (n : ℤ) with
      | none => rw [hq] at hrun; simp at hrun
      | some r =>
        obtain ⟨out, x₁⟩ := r
        rw [hq] at hrun
        simp only [Option.map_some'] at hrun
        obtain ⟨e1, e2, e3, e4⟩ := perform_prev_value_unit x n out x₁ hinc hp h0 hq
        exact ih x₁ (e1 ▸ hinc) (e2 ▸ hp) e3 e4 hwf' hpn' hrun

/-- C3 (amended): start from the constructed object, where either the
allocator left a non-negative `increase` or the first operation is a
`configure`. After any sequence of `configure` with a positive sample rate,
`set_pitch` with a non-negative value and `render` with any block length, all
blocks being defined, `0 ≤ prev_value < 1`. The sequence is arbitrary, so this
holds after every update of a session. -/
theorem prev_value_in_unit_interval (increase0 : t_float) (ops : List Op)
    (x : t_myphasor_tilde)
    (hinc : 0 ≤ increase0 ∨ ∃ s_sr rest, ops = Op.configure s_sr :: rest)
    (hwf : ∀ op ∈ ops, Op.wellFormed op) (hpn : ∀ op ∈ ops, Op.pitchNonneg op)
    (hrun : run (myphasor_tilde_new increase0) ops = some x) :
    0 ≤ x.prev_value ∧ x.prev_value < 1 := by
  rcases hinc with hinc | ⟨s_sr, rest, rfl⟩
  · exact run_keeps_unit_interval ops (myphasor_tilde_new increase0) x hinc
      (by norm_num [myphasor_tilde_new]) (by norm_num [myphasor_tilde_new])
      (by norm_num [myphasor_tilde_new]) hwf hpn hrun
  · have hs : 0 < s_sr := hwf (Op.configure s_sr) (List.mem_cons_self _ _)
    simp only [run, Op.apply] at hrun
    refine run_keeps_unit_interval rest (myphasor_tilde_dsp (myphasor_tilde_new increase0) s_sr)
      x ?_ (by norm_num [myphasor_tilde_dsp, myphasor_tilde_new])
      (by norm_num [myphasor_tilde_dsp, myphasor_tilde_new])
      (by norm_num [myphasor_tilde_dsp, myphasor_tilde_new])
      (fun o ho => hwf o (List.mem_cons_of_mem _ ho))
      (fun o ho => hpn o (List.mem_cons_of_mem _ ho)) hrun
    show 0 ≤ 1 / s_sr
    positivity

theorem session_example :
    run (myphasor_tilde_new (-7)) [Op.configure 4, Op.set_pitch (3 / 2), Op.render 3] =
      some { pitch := 3 / 2, startloop := 0, endloop := 1, increase := 1 / 4,
             prev_value := 1 / 8 } := by
  have f0 : fract (0 : t_float) = some 0 := fract_of_unit (by norm_num) (by norm_num)
  have f1 : fract (3 / 8) = some (3 / 8) := fract_of_unit (by norm_num) (by norm_num)
  have f2 : fract (3 / 4) = some (3 / 4) := fract_of_unit (by norm_num) (by norm_num)
  have f3 : fract (9 / 8) = some (1 / 8) :=
    fract_eval 1 (truncate_eq_of_floor 1 (by norm_num) (by norm_num) (by norm_num))
      (by decide) (by decide) (by norm_num)
  norm_num [run, Op.apply, myphasor_tilde_new, myphasor_tilde_dsp, MyPhasor.set_pitch,
    myphasor_tilde_perform, perform_loop, f0, f1, f2, f3]

theorem prev_value_in_unit_interval_witness :
    run (myphasor_tilde_new (-7)) [Op.configure 4, Op.set_pitch (3 / 2), Op.render 3] =
      some { pitch := 3 / 2, startloop := 0, endloop := 1, increase := 1 / 4,
             prev_value := 1 / 8 } ∧
    (0 : t_float) ≤ 1 / 8 ∧ (1 / 8 : t_float) < 1 :=
  ⟨session_example,
    prev_value_in_unit_interval (-7) [Op.configure 4, Op.set_pitch (3 / 2), Op.render 3]
      { pitch := 3 / 2, startloop := 0, endloop := 1, increase := 1 / 4, prev_value := 1 / 8 }
      (Or.inr ⟨4, _, rfl⟩)
      (by intro op hop; simp at hop; rcases hop with rfl | rfl | rfl <;> simp [Op.wellFormed])
      (by
        intro op hop; simp at hop
        rcases hop with rfl | rfl | rfl <;> norm_num [Op.pitchNonneg])
      session_example⟩

/-- Counterexample to C3 as stated: configure at sample rate 4, set the pitch to
`-1` and render one block of length 1; the block is defined and leaves
`prev_value = fract (-1/4) = -1/4`, which is negative. -/
theorem prev_value_counterexample :
    (∀ op ∈ [Op.configure 4, Op.set_pitch (-1), Op.render 1], Op.wellFormed op) ∧
    run (myphasor_tilde_new 0) [Op.configure 4, Op.set_pitch (-1), Op.render 1] =
      some { pitch := -1, startloop := 0, endloop := 1, increase := 1 / 4,
             prev_value := -1 / 4 } ∧
    ¬ (0 ≤ (-1 / 4 : t_float) ∧ (-1 / 4 : t_float) < 1) := by
  refine ⟨?_, ?_, by norm_num⟩
  · intro op hop; simp at hop
    rcases hop with rfl | rfl | rfl <;> norm_num [Op.wellFormed]
  · have f0 : fract (0 : t_float) = some 0 := fract_of_unit (by norm_num) (by norm_num)
    have f1 : fract (-(1 / 4)) = some (-(1 / 4)) :=
      fract_eval 0 (truncate_eq_of_ceil 0 (by norm_num) (by norm_num) (by norm_num))
        (by decide) (by decide) (by norm_num)
    norm_num [run, Op.apply, myphasor_tilde_new, myphasor_tilde_dsp, MyPhasor.set_pitch,
      myphasor_tilde_perform, perform_loop, f0, f1]

/-! ## What a block reads and writes -/

theorem perform_loop_congr (x y : t_myphasor_tilde) (hp : y.pitch = x.pitch)
    (hi : y.increase = x.increase) (hv : y.prev_value = x.prev_value) (k i : ℕ)
    (out : List t_float) : perform_loop y k i out = perform_loop x k i out := by
  induction k generalizing i out with
  | zero => rfl
  | succ k ih =>
    simp only [perform_loop, hp, hi, hv]
    cases fract (x.prev_value + ((i : t_float) * x.increase) * x.pitch) with
    | none => rfl
    | some v => exact ih (i + 1) (out ++ [v])

theorem perform_frame (x : t_myphasor_tilde) (n : ℤ) (out : List t_float)
    (x' : t_myphasor_tilde) (h : myphasor_tilde_perform x n = some (out, x')) :
    perform_loop x n.toNat 0 [] = some out ∧
    fract (x.prev_value + ((n : t_float) * x.increase) * x.pitch) = some x'.prev_value ∧
    x' = { x with prev_value := x'.prev_value } := by
  unfold myphasor_tilde_perform at h
  cases hl : perform_loop x n.toNat 0 [] with
  | none => rw [hl] at h; cases h
  | some o =>
    rw [hl] at h
    cases hf : fract (x.prev_value + ((n : t_float) * x.increase) * x.pitch) with
    | none => rw [hf] at h; cases h
    | some p =>
      rw [hf] at h
      simp only [Option.some.injEq, Prod.mk.injEq] at h
      obtain ⟨h1, h2⟩ := h
      subst h1; subst h2
      exact ⟨rfl, rfl, rfl⟩

/-- C11: a defined block, of any length `n`, returns the object with `pitch`,
`increase`, `startloop` and `endloop` as at block entry; only `prev_value` is
written, with `fract (prev_value + n * increase * pitch)` on the entry fields.
The samples are those of the loop run on the entry object: sample `i` is
`fract` of the entry `prev_value` plus `i * increase * pitch`, never of a value
written during the block. The block is defined as soon as its calls of `fract`
are. -/
theorem perform_writes_only_prev_value (x : t_myphasor_tilde) (n : ℕ) :
    ((∀ i, i ≤ n → (fract (x.prev_value + ((i : t_float) * x.increase) * x.pitch)).isSome) →
      (myphasor_tilde_perform x (n : ℤ)).isSome) ∧
    ∀ (m : ℤ) out x', myphasor_tilde_perform x m = some (out, x') →
      x'.pitch = x.pitch ∧ x'.increase = x.increase ∧
      x'.startloop = x.startloop ∧ x'.endloop = x.endloop ∧
      x' = { x with prev_value := x'.prev_value } ∧
      fract (x.prev_value + ((m : t_float) * x.increase) * x.pitch) = some x'.prev_value ∧
      perform_loop x m.toNat 0 [] = some out ∧
      ∀ i : ℕ, (i : ℤ) < m →
        out[i]? = fract (x.prev_value + ((i : t_float) * x.increase) * x.pitch) := by
  refine ⟨?_, ?_⟩
  · intro h
    exact (perform_isSome_iff x n).mpr fun i hi => (fract_isSome_iff (raw_phase x i)).mp (h i hi)
  · intro m out x' h
    obtain ⟨h1, h2, h3⟩ := perform_frame x m out x' h
    refine ⟨by rw [h3], by rw [h3], by rw [h3], by rw [h3], h3, h2, h1, ?_⟩
    intro i hi
    have hm : m = ((m.toNat : ℕ) : ℤ) := (Int.toNat_of_nonneg (by omega)).symm
    have hi' : i < m.toNat := by omega
    rw [hm] at h
    obtain ⟨hrep, hout, -⟩ := (perform_eq_some_iff x m.toNat out x').mp h
    rw [hout, block_samples_getElem? x m.toNat i hi']
    exact (fract_eq_some (hrep i hi'.le)).symm

theorem perform_writes_only_prev_value_witness :
    myphasor_tilde_perform
        { pitch := 1, startloop := 0, endloop := 1, increase := 1 / 2, prev_value := 3 / 4 } 2 =
      some ([3 / 4, 1 / 4],
        { pitch := 1, startloop := 0, endloop := 1, increase := 1 / 2, prev_value := 3 / 4 }) ∧
    fract ((3 / 4 : t_float) + (((2 : ℤ) : t_float) * (1 / 2)) * 1) = some (3 / 4) ∧
    perform_loop
        { pitch := 1, startloop := 0, endloop := 1, increase := 1 / 2, prev_value := 3 / 4 }
        (2 : ℤ).toNat 0 [] = some [3 / 4, 1 / 4] ∧
    ∀ i : ℕ, (i : ℤ) < 2 → ([3 / 4, 1 / 4] : List t_float)[i]? =
      fract ((3 / 4 : t_float) + ((i : t_float) * (1 / 2)) * 1) :=
  ⟨perform_wrap_example,
    ((perform_writes_only_prev_value
      { pitch := 1, startloop := 0, endloop := 1, increase := 1 / 2, prev_value := 3 / 4 } 2).2
      2 _ _ perform_wrap_example).2.2.2.2.2⟩

/-- C18: `startloop` and `endloop` are inert. Two objects that differ in these
two fields only render, for any block length, the same samples and the same new
`prev_value` (and are defined together); and none of `myphasor_tilde_dsp`, the
pitch inlet and `myphasor_tilde_perform` changes either field. -/
theorem loop_bounds_inert (x : t_myphasor_tilde) (a b : t_float) (n : ℤ) :
    (myphasor_tilde_perform { x with startloop := a, endloop := b } n).map
        (fun r => (r.1, r.2.prev_value)) =
      (myphasor_tilde_perform x n).map (fun r => (r.1, r.2.prev_value)) ∧
    ∀ op x', Op.apply x op = some x' →
      x'.startloop = x.startloop ∧ x'.endloop = x.endloop := by
  refine ⟨?_, ?_⟩
  · unfold myphasor_tilde_perform
    rw [perform_loop_congr x { x with startloop := a, endloop := b } rfl rfl rfl]
    cases perform_loop x n.toNat 0 [] with
    | none => rfl
    | some out =>
      simp only
      cases fract (x.prev_value + ((n : t_float) * x.increase) * x.pitch) with
      | none => rfl
      | some p => rfl
  · intro op x' h
    cases op with
    | configure s_sr =>
      simp only [Op.apply, Option.some.injEq] at h
      subst h; exact ⟨rfl, rfl⟩
    | set_pitch value =>
      simp only [Op.apply, Option.some.injEq] at h
      subst h; exact ⟨rfl, rfl⟩
    | render m =>
      simp only [Op.apply, Option.map_eq_some', Prod.exists, exists_eq_right] at h
      obtain ⟨out, h⟩ := h
      obtain ⟨-, -, h3⟩ := perform_frame x m out x' h
      rw [h3]; exact ⟨rfl, rfl⟩

theorem render_op_example :
    Op.apply
        { pitch := 1, startloop := 0, endloop := 1, increase := 1 / 2, prev_value := 3 / 4 }
        (Op.render 2) =
      some { pitch := 1, startloop := 0, endloop := 1, increase := 1 / 2, prev_value := 3 / 4 } := by
  show (myphasor_tilde_perform _ ((2 : ℕ) : ℤ)).map Prod.snd = _
  rw [show ((2 : ℕ) : ℤ) = 2 from rfl, perform_wrap_example]
  rfl

theorem loop_bounds_inert_witness :
    Op.apply
        { pitch := 1, startloop := 0, endloop := 1, increase := 1 / 2, prev_value := 3 / 4 }
        (Op.render 2) =
      some { pitch := 1, startloop := 0, endloop := 1, increase := 1 / 2, prev_value := 3 / 4 } ∧
    ({ pitch := 1, startloop := 0, endloop := 1, increase := 1 / 2, prev_value := 3 / 4 } :
        t_myphasor_tilde).startloop = 0 ∧
    ({ pitch := 1, startloop := 0, endloop := 1, increase := 1 / 2, prev_value := 3 / 4 } :
        t_myphasor_tilde).endloop = 1 :=
  ⟨render_op_example,
    (loop_bounds_inert
      { pitch := 1, startloop := 0, endloop := 1, increase := 1 / 2, prev_value := 3 / 4 }
      0 1 2).2 (Op.render 2) _ render_op_example⟩

/-- C12: whatever the allocator left in `increase`, the constructed object has
`pitch = 1`, `prev_value = 0`, `startloop = 0` and `endloop = 1`, and
`increase` is the one field the constructor does not write. -/
theorem new_initial_state (increase0 : t_float) :
    (myphasor_tilde_new increase0).pitch = 1 ∧
    (myphasor_tilde_new increase0).prev_value = 0 ∧
    (myphasor_tilde_new increase0).startloop = 0 ∧
    (myphasor_tilde_new increase0).endloop = 1 ∧
    (myphasor_tilde_new increase0).increase = increase0 :=
  ⟨rfl, rfl, rfl, rfl, rfl⟩

/-! ## The fractional part as a function -/

theorem truncate_abs_le (x : t_float) : |(truncateTowardZero x : t_float)| ≤ |x| := by
  rcases le_or_lt 0 x with h | h
  · have h1 : (0 : t_float) ≤ (⌊x⌋ : t_float) := by exact_mod_cast Int.floor_nonneg.mpr h
    rw [truncate_of_nonneg h, abs_of_nonneg h1, abs_of_nonneg h]
    exact Int.floor_le x
  · have h1 : ((⌈x⌉ : ℤ) : t_float) ≤ 0 := by
      exact_mod_cast Int.ceil_le.mpr (by simpa using h.le)
    rw [truncate_of_nonpos h.le, abs_of_nonpos h1, abs_of_neg h]
    have := Int.le_ceil x
    linarith

theorem sub_truncate_nonneg {x : t_float} (h : 0 ≤ x) :
    0 ≤ x - (truncateTowardZero x : t_float) ∧ x - (truncateTowardZero x : t_float) < 1 ∧
      x - (truncateTowardZero x : t_float) = Int.fract x := by
  rw [truncate_of_nonneg h]
  exact ⟨Int.fract_nonneg x, Int.fract_lt_one x, rfl⟩

theorem sub_truncate_nonpos {x : t_float} (h : x ≤ 0) :
    -1 < x - (truncateTowardZero x : t_float) ∧ x - (truncateTowardZero x : t_float) ≤ 0 := by
  rw [truncate_of_nonpos h]
  have h1 := Int.le_ceil x
  have h2 := Int.ceil_lt_add_one x
  constructor <;> linarith

/-- C16: whenever the truncation toward zero of `x` fits an `int`, `fract x` is
defined and equals `x - k`, where `k`, the truncation, is an integer with
`|k| ≤ |x|` and `|x - k| < 1`. Hence for `x ≥ 0` the result lies in `[0, 1)` and
is the floored fractional part `x - ⌊x⌋`, and for `x < 0` it lies in
`(-1, 0]`. -/
theorem fract_truncation_based (x : t_float) (h : Representable x) :
    fract x = some (x - (truncateTowardZero x : t_float)) ∧
    |(truncateTowardZero x : t_float)| ≤ |x| ∧
    |x - (truncateTowardZero x : t_float)| < 1 ∧
    (0 ≤ x → ∃ v, fract x = some v ∧ 0 ≤ v ∧ v < 1 ∧ v = Int.fract x) ∧
    (x < 0 → ∃ v, fract x = some v ∧ -1 < v ∧ v ≤ 0) := by
  refine ⟨fract_eq_some h, truncate_abs_le x, ?_, ?_, ?_⟩
  · rcases le_or_lt 0 x with hx | hx
    · obtain ⟨a, b, -⟩ := sub_truncate_nonneg hx
      rw [abs_lt]; constructor <;> linarith
    · obtain ⟨a, b⟩ := sub_truncate_nonpos hx.le
      rw [abs_lt]; constructor <;> linarith
  · intro hx
    obtain ⟨a, b, c⟩ := sub_truncate_nonneg hx
    exact ⟨_, fract_eq_some h, a, b, c⟩
  · intro hx
    obtain ⟨a, b⟩ := sub_truncate_nonpos hx.le
    exact ⟨_, fract_eq_some h, a, b⟩

theorem fract_truncation_based_witness :
    fract (-7 / 4) = some (-7 / 4 - ((-1 : ℤ) : t_float)) ∧
    (∃ v, fract (-7 / 4) = some v ∧ -1 < v ∧ v ≤ 0) := by
  have ht : truncateTowardZero (-7 / 4) = -1 :=
    truncate_eq_of_ceil (-1) (by norm_num) (by norm_num) (by norm_num)
  have hr : Representable (-7 / 4) := by
    rw [representable_iff_bounds]; norm_num
  have h := fract_truncation_based (-7 / 4) hr
  rw [ht] at h
  exact ⟨h.1, h.2.2.2.2 (by norm_num)⟩

/-! ## Scenarios -/

theorem truncate_natCast (k : ℕ) : truncateTowardZero (k : t_float) = (k : ℤ) := by
  rw [truncate_of_nonneg (Nat.cast_nonneg k)]
  exact Int.floor_natCast k

/-- A block of length 4 at step `1/4` from phase 0. -/
theorem full_cycle_block (x : t_myphasor_tilde) (hp : x.pitch = 1) (hi : x.increase = 1 / 4)
    (hv : x.prev_value = 0) :
    myphasor_tilde_perform x ((4 : ℕ) : ℤ) =
      some ([0, 1 / 4, 1 / 2, 3 / 4], { x with prev_value := 0 }) := by
  have r : ∀ j : ℕ, raw_phase x j = (j : t_float) / 4 := by
    intro j; rw [raw_phase, hp, hi, hv]; ring
  have t : ∀ j : ℕ, j < 4 → truncateTowardZero ((j : t_float) / 4) = 0 := by
    intro j hj
    apply truncate_of_unit
    · positivity
    · have : (j : t_float) < 4 := by exact_mod_cast hj
      linarith
  have t4 : truncateTowardZero (((4 : ℕ) : t_float) / 4) = 1 :=
    truncate_eq_of_floor 1 (by norm_num) (by norm_num) (by norm_num)
  rw [perform_eq_some_iff]
  refine ⟨?_, ?_, ?_⟩
  · intro j hj
    rw [representable_iff_bounds, r]
    interval_cases j <;> norm_num
  · simp only [block_samples, List.range_succ, List.range_zero, List.nil_append,
      List.map_append, List.map_cons, List.map_nil, List.singleton_append, List.cons_append, r]
    rw [t 0 (by norm_num), t 1 (by norm_num), t 2 (by norm_num), t 3 (by norm_num)]
    norm_num
  · rw [r, t4]; norm_num

/-- C14: the constructed object (phase 0, pitch 1), configured at sample rate
4, renders a block of length 4 as `[0, 1/4, 1/2, 3/4]` and is left with the
carried phase `0`, which is `fract 1`, the wrapped value of `1`. -/
theorem scenario_full_cycle (increase0 : t_float) :
    myphasor_tilde_perform (myphasor_tilde_dsp (myphasor_tilde_new increase0) 4) 4 =
      some ([0, 1 / 4, 1 / 2, 3 / 4],
        { pitch := 1, startloop := 0, endloop := 1, increase := 1 / 4, prev_value := 0 }) ∧
    raw_phase (myphasor_tilde_dsp (myphasor_tilde_new increase0) 4) 4 = 1 ∧
    fract (1 : t_float) = some 0 := by
  refine ⟨full_cycle_block _ rfl rfl rfl, ?_, ?_⟩
  · norm_num [raw_phase, myphasor_tilde_dsp, myphasor_tilde_new]
  · exact fract_eval 1 (truncate_eq_of_floor 1 (by norm_num) (by norm_num) (by norm_num))
      (by decide) (by decide) (by norm_num)

/-- A block of length 3 at step `1` from phase 0. -/
theorem integer_phases_block (x : t_myphasor_tilde) (hp : x.pitch = 2)
    (hi : x.increase = 1 / 2) (hv : x.prev_value = 0) :
    (List.range 3).map (raw_phase x) = [0, 1, 2] ∧
    myphasor_tilde_perform x ((3 : ℕ) : ℤ) = some ([0, 0, 0], { x with prev_value := 0 }) := by
  have r : ∀ j : ℕ, raw_phase x j = (j : t_float) := by
    intro j; rw [raw_phase, hp, hi, hv]; ring
  constructor
  · simp only [List.range_succ, List.range_zero, List.nil_append, List.map_append,
      List.map_cons, List.map_nil, List.singleton_append, List.cons_append, r]
    norm_num
  · rw [perform_eq_some_iff]
    refine ⟨?_, ?_, ?_⟩
    · intro j hj
      rw [representable_iff_bounds, r]
      interval_cases j <;> norm_num
    · simp only [block_samples, List.range_succ, List.range_zero, List.nil_append,
        List.map_append, List.map_cons, List.map_nil, List.singleton_append, List.cons_append, r,
        truncate_natCast]
      norm_num
    · rw [r, truncate_natCast]; norm_num

/-- C15: from phase 0 with the pitch set to 2 and sample rate 2, the arguments
of a block of length 3 are `0`, `1`, `2`, its samples `[0, 0, 0]`, and the
carried phase is `fract 3 = 0`. -/
theorem scenario_integer_phases (increase0 : t_float) :
    (List.range 3).map
        (raw_phase (myphasor_tilde_dsp (set_pitch (myphasor_tilde_new increase0) 2) 2)) =
      [0, 1, 2] ∧
    myphasor_tilde_perform (myphasor_tilde_dsp (set_pitch (myphasor_tilde_new increase0) 2) 2) 3 =
      some ([0, 0, 0],
        { pitch := 2, startloop := 0, endloop := 1, increase := 1 / 2, prev_value := 0 }) ∧
    fract (3 : t_float) = some 0 :=
  ⟨(integer_phases_block _ rfl rfl rfl).1, (integer_phases_block _ rfl rfl rfl).2,
    fract_eval 3 (truncate_eq_of_floor 3 (by norm_num) (by norm_num) (by norm_num))
      (by decide) (by decide) (by norm_num)⟩

/-- C17: `fract (-3/10)` is `-3/10`, not `7/10`; and the constructed object,
configured at sample rate 10 with the pitch set to `-3`, is left by a block of
length 1 with `prev_value = -3/10`, strictly negative. -/
theorem negative_pitch_goes_below_zero (increase0 : t_float) :
    fract (-3 / 10) = some (-3 / 10) ∧ fract (-3 / 10) ≠ some (7 / 10) ∧
    myphasor_tilde_perform
        (set_pitch (myphasor_tilde_dsp (myphasor_tilde_new increase0) 10) (-3)) 1 =
      some ([0],
        { pitch := -3, startloop := 0, endloop := 1, increase := 1 / 10,
          prev_value := -3 / 10 }) ∧
    run (myphasor_tilde_new increase0) [Op.configure 10, Op.set_pitch (-3), Op.render 1] =
      some { pitch := -3, startloop := 0, endloop := 1, increase := 1 / 10,
             prev_value := -3 / 10 } ∧
    (-3 / 10 : t_float) < 0 := by
  have f0 : fract (0 : t_float) = some 0 := fract_of_unit (by norm_num) (by norm_num)
  have f1 : fract (-(3 / 10)) = some (-(3 / 10)) :=
    fract_eval 0 (truncate_eq_of_ceil 0 (by norm_num) (by norm_num) (by norm_num))
      (by decide) (by decide) (by norm_num)
  have f1' : fract (-3 / 10) = some (-3 / 10) := by
    rw [show (-3 / 10 : t_float) = -(3 / 10) by norm_num]; exact f1
  refine ⟨f1', ?_, ?_, ?_, by norm_num⟩
  · rw [f1']; norm_num
  · norm_num [myphasor_tilde_new, myphasor_tilde_dsp, set_pitch, myphasor_tilde_perform,
      perform_loop, f0, f1]
  · norm_num [run, Op.apply, myphasor_tilde_new, myphasor_tilde_dsp, MyPhasor.set_pitch,
      myphasor_tilde_perform, perform_loop, f0, f1]

/-! ## The accumulator for either sign of the pitch -/

end MyPhasor
